import Mathlib

/-!
Verification development for `martincostello/benchmarkdotnet-results-publisher`,
a GitHub Action that merges BenchmarkDotNet JSON results into a history document
stored in a git branch and evaluates performance regressions.

The definitions below are a shallow embedding of `src/BenchmarksPublisher.ts`
(the class `BenchmarksPublisher`).  JavaScript numbers are idealized as exact
rationals extended with `NaN` and signed infinities (`JsVal`); arithmetic on
finite values is exact rather than IEEE-754-rounded.  JavaScript objects used
as string-keyed records are modelled as insertion-ordered association lists.
Remote (GitHub REST) calls are modelled at the call boundary: each remote
operation's outcome is an explicit input (`Except ApiError _`), mirroring how
the TypeScript code branches on the result or the thrown error's `status`.
-/

/-- A JavaScript number: an exact rational, `NaN`, or a signed infinity.
Finite arithmetic is idealized as exact (no IEEE-754 rounding). -/
inductive JsVal where
  | num (q : ℚ)
  | nan
  | inf
  | ninf
deriving DecidableEq, Repr

/-- JavaScript subtraction on `JsVal`. -/
def jsSub : JsVal → JsVal → JsVal
  | .nan, _ => .nan
  | _, .nan => .nan
  | .num a, .num b => .num (a - b)
  | .num _, .inf => .ninf
  | .num _, .ninf => .inf
  | .inf, .inf => .nan
  | .inf, .ninf => .inf
  | .inf, .num _ => .inf
  | .ninf, .ninf => .nan
  | .ninf, .inf => .ninf
  | .ninf, .num _ => .ninf

/-- JavaScript division on `JsVal` (division of a nonzero finite value by zero
yields a signed infinity, `0 / 0` yields `NaN`; `-0` is not modelled). -/
def jsDiv : JsVal → JsVal → JsVal
  | .nan, _ => .nan
  | _, .nan => .nan
  | .inf, .inf => .nan
  | .inf, .ninf => .nan
  | .ninf, .inf => .nan
  | .ninf, .ninf => .nan
  | .inf, .num b => if b < 0 then .ninf else .inf
  | .ninf, .num b => if b < 0 then .inf else .ninf
  | .num _, .inf => .num 0
  | .num _, .ninf => .num 0
  | .num a, .num b =>
      if b = 0 then (if a = 0 then .nan else if 0 < a then .inf else .ninf)
      else .num (a / b)

/-- JavaScript multiplication on `JsVal`. -/
def jsMul : JsVal → JsVal → JsVal
  | .nan, _ => .nan
  | _, .nan => .nan
  | .num a, .num b => .num (a * b)
  | .inf, .inf => .inf
  | .inf, .ninf => .ninf
  | .ninf, .inf => .ninf
  | .ninf, .ninf => .inf
  | .inf, .num b => if b = 0 then .nan else if 0 < b then .inf else .ninf
  | .num a, .inf => if a = 0 then .nan else if 0 < a then .inf else .ninf
  | .ninf, .num b => if b = 0 then .nan else if 0 < b then .ninf else .inf
  | .num a, .ninf => if a = 0 then .nan else if 0 < a then .ninf else .inf

/-- JavaScript strict greater-than on `JsVal` (`NaN` compares false). -/
def jsGtB : JsVal → JsVal → Bool
  | .nan, _ => false
  | _, .nan => false
  | .inf, .inf => false
  | .inf, _ => true
  | .ninf, _ => false
  | .num _, .inf => false
  | .num _, .ninf => true
  | .num a, .num b => decide (b < a)

/-- JavaScript truthiness of a number (`0` and `NaN` are falsy). -/
def jsTruthy : JsVal → Bool
  | .num q => q != 0
  | .nan => false
  | .inf => true
  | .ninf => true

/-- The `Statistics` section of a parsed BenchmarkDotNet benchmark
(`interface BenchmarkDotnetBenchmark`, fields the code reads).  Values parsed
from JSON are finite numbers. -/
structure BdnStatistics where
  StandardDeviation : ℚ
  Mean : ℚ
deriving DecidableEq, Repr

/-- The `Memory` section of a parsed BenchmarkDotNet benchmark. -/
structure BdnMemory where
  Gen0Collections : ℚ
  Gen1Collections : ℚ
  Gen2Collections : ℚ
  TotalOperations : ℚ
  BytesAllocatedPerOperation : ℚ
deriving DecidableEq, Repr

/-- One benchmark record of a parsed result file
(`interface BenchmarkDotnetBenchmark`).  `Statistics` is optional because the
code accesses it as `benchmark.Statistics?.Mean`. -/
structure BenchmarkDotnetBenchmark where
  FullName : String
  Statistics : Option BdnStatistics
  Memory : Option BdnMemory
deriving DecidableEq, Repr

/-- One parsed result file (`interface BenchmarkDotNetResults`). -/
structure BenchmarkDotNetResults where
  Title : String
  Benchmarks : List BenchmarkDotnetBenchmark
deriving DecidableEq, Repr

/-- `interface GitHubUser`. -/
structure GitHubUser where
  username : Option String
deriving DecidableEq, Repr

/-- `interface Commit`: the commit descriptor attached to every history entry
created in one publish cycle. -/
structure Commit where
  author : GitHubUser
  committer : GitHubUser
  sha : String
  message : String
  timestamp : Option String
  url : String
deriving DecidableEq, Repr

/-- `interface BenchmarkResult`: one benchmark point stored in the history. -/
structure BenchmarkResult where
  name : String
  value : JsVal
  range : Option String
  unit : String
  bytesAllocated : Option JsVal
deriving DecidableEq, Repr

/-- `interface Benchmark`: one history entry (commit + timestamp + points). -/
structure Benchmark where
  commit : Commit
  date : Int
  benches : List BenchmarkResult
deriving DecidableEq, Repr

/-- `interface BenchmarksData`: the persisted history document.  The
string-keyed `entries` record is modelled as an insertion-ordered association
list (JavaScript objects preserve insertion order of string keys). -/
structure BenchmarksData where
  lastUpdated : Int
  repoUrl : String
  entries : List (String × List Benchmark)
deriving DecidableEq, Repr

/-- `interface BenchmarksDelta`: a current point paired with the
matching-named point of the previous entry (or `null`). -/
structure BenchmarksDelta where
  current : BenchmarkResult
  previous : Option BenchmarkResult
deriving DecidableEq, Repr

/-- `type RegressionType = 'duration' | 'memory'`. -/
inductive RegressionType where
  | duration
  | memory
deriving DecidableEq, Repr

/-- `interface BenchmarkRegression`.  The source's `ratio` field is named
`ratioValue` here (and `percentage` is kept as in the source). -/
structure BenchmarkRegression where
  name : String
  type : RegressionType
  current : JsVal
  previous : JsVal
  percentage : JsVal
  ratioValue : JsVal
deriving DecidableEq, Repr

/-- The subset of `interface PublishOptions` the modelled operations read. -/
structure PublishOptions where
  name : Option String
  maxItems : Option Int
  failThresholdDuration : Option JsVal
  failThresholdMemory : Option JsVal
  serverUrl : String
  runRepo : String

/-- Lookup in a string-keyed JavaScript object modelled as an association
list (`obj[key]`, yielding `undefined` when absent). -/
def getKey (m : List (String × α)) (k : String) : Option α :=
  (m.find? (fun p => p.1 = k)).map (fun p => p.2)

/-- Assignment `obj[key] = v` on a string-keyed JavaScript object: an existing
key keeps its position, a new key is appended at the end. -/
def setKey (m : List (String × α)) (k : String) (v : α) : List (String × α) :=
  if m.any (fun p => p.1 = k) then
    m.map (fun p => if p.1 = k then (k, v) else p)
  else
    m ++ [(k, v)]

theorem getKey_setKey_self (m : List (String × α)) (k : String) (v : α) :
    getKey (setKey m k v) k = some v := by
  unfold getKey setKey
  by_cases h : m.any (fun p => p.1 = k)
  · simp only [h, if_true]
    induction m with
    | nil => simp at h
    | cons p rest ih =>
        by_cases hp : p.1 = k
        · simp [List.find?, hp]
        · simp only [List.any_cons, hp] at h
          simp only [List.map_cons, if_neg hp, List.find?]
          have : (decide (p.1 = k)) = false := by simp [hp]
          simp only [this]
          exact ih (by simpa [hp] using h)
  · simp only [h, if_false]
    induction m with
    | nil => simp [List.find?]
    | cons p rest ih =>
        simp only [List.any_cons, Bool.or_eq_true, not_or] at h
        have hp : ¬(p.1 = k) := by simpa using h.1
        simp only [List.cons_append, List.find?]
        have : (decide (p.1 = k)) = false := by simp [hp]
        simp only [this]
        exact ih (by simpa using h.2)

theorem getKey_map_replace (m : List (String × α)) (k k' : String) (v : α)
    (h : k' ≠ k) :
    getKey (m.map (fun p => if p.1 = k then (k, v) else p)) k' = getKey m k' := by
  induction m with
  | nil => rfl
  | cons p rest ih =>
      by_cases hp : p.1 = k
      · have hpk' : (decide (p.1 = k')) = false := by
          simp [hp, Ne.symm h]
        simp only [List.map_cons, if_pos hp]
        unfold getKey
        simp only [List.find?]
        have hk : (decide ((k : String) = k')) = false := by simp [Ne.symm h]
        simp only [hk, hpk']
        exact ih
      · simp only [List.map_cons, if_neg hp]
        unfold getKey
        simp only [List.find?]
        cases hd : decide (p.1 = k') with
        | true => simp
        | false => exact ih

theorem getKey_append_single_ne (m : List (String × α)) (k k' : String) (v : α)
    (h : k' ≠ k) : getKey (m ++ [(k, v)]) k' = getKey m k' := by
  induction m with
  | nil =>
      unfold getKey
      simp [List.find?, Ne.symm h]
  | cons p rest ih =>
      unfold getKey
      simp only [List.cons_append, List.find?]
      cases hd : decide (p.1 = k') with
      | true => simp
      | false => exact ih

theorem getKey_setKey_ne (m : List (String × α)) (k k' : String) (v : α)
    (h : k' ≠ k) : getKey (setKey m k v) k' = getKey m k' := by
  unfold setKey
  by_cases hm : m.any (fun p => p.1 = k)
  · simp only [hm, if_true]
    exact getKey_map_replace m k k' v h
  · simp only [hm, if_false]
    exact getKey_append_single_ne m k k' v h

/-- Split a character list on every occurrence of `c`
(`String.prototype.split` with a single-character separator; always returns
at least one piece). -/
def charsSplitOn (c : Char) : List Char → List (List Char)
  | [] => [[]]
  | a :: rest =>
      match charsSplitOn c rest with
      | [] => [[]]
      | x :: xs => if a = c then [] :: x :: xs else (a :: x) :: xs

/-- `title.split('-')` as used by `mergeResults`. -/
def jsSplitOnDash (s : String) : List String :=
  (charsSplitOn '-' s.data).map (fun l => ⟨l⟩)

/-- Suite-name resolution in `mergeResults`: the `name` option when truthy
(non-empty), else the run title split on `-`, taking the first segment. -/
def suiteNameOf (opts : PublishOptions) (result : BenchmarkDotNetResults) : String :=
  match opts.name with
  | some n => if n = "" then (jsSplitOnDash result.Title).headD "" else n
  | none => (jsSplitOnDash result.Title).headD ""

/-- Building one stored benchmark point from a parsed record (`mergeResults`,
loop body over `result.Benchmarks`).  `value` is `Statistics?.Mean ?? NaN`;
`range` is present exactly when `Statistics` is (the numeral-to-string
rendering of the standard deviation is idealized as `toString`);
`bytesAllocated` is set exactly when a `Memory` section is present. -/
def mkItem (b : BenchmarkDotnetBenchmark) : BenchmarkResult :=
  let base : BenchmarkResult :=
    { name := b.FullName
      value := match b.Statistics with | some s => .num s.Mean | none => .nan
      unit := "ns"
      range := b.Statistics.map (fun s => "± " ++ toString s.StandardDeviation)
      bytesAllocated := none }
  match b.Memory with
  | some m => { base with bytesAllocated := some (.num m.BytesAllocatedPerOperation) }
  | none => base

/-- The history entry `mergeResults` appends for one parsed run. -/
def mkEntry (commit : Commit) (now : Int) (result : BenchmarkDotNetResults) : Benchmark :=
  { commit := commit, date := now, benches := result.Benchmarks.map mkItem }

/-- `Array.prototype.slice(start)` for the nonnegative `start` values arising
at the `mergeResults` call site (`suite.slice(suite.length - maxItems)`; the
start is clamped at the length, so an out-of-range start yields `[]`). -/
def jsSliceFrom (l : List α) (start : Int) : List α := l.drop start.toNat

/-- The sliding-window truncation step of `mergeResults`:
`if (this.options.maxItems && suite.length > this.options.maxItems)
   suite = suite.slice(suite.length - this.options.maxItems)`.
Note `maxItems === 0` is falsy in JavaScript, so a configured cap of `0`
performs no truncation. -/
def truncateSuite (mi : Option Int) (suite : List Benchmark) : List Benchmark :=
  match mi with
  | some n =>
      if n ≠ 0 ∧ (n : Int) < (suite.length : Int)
      then jsSliceFrom suite ((suite.length : Int) - n)
      else suite
  | none => suite

/-- One iteration of the `for (const fileName in results)` loop of
`BenchmarksPublisher.mergeResults`. -/
def mergeStep (opts : PublishOptions) (commit : Commit) (now : Int)
    (acc : BenchmarksData) (run : String × BenchmarkDotNetResults) : BenchmarksData :=
  let result := run.2
  let suiteName := suiteNameOf opts result
  let suite := (getKey acc.entries suiteName).getD []
  let items := result.Benchmarks.map mkItem
  let suite := suite ++ [{ commit := commit, date := now, benches := items }]
  let suite := truncateSuite opts.maxItems suite
  { acc with entries := setKey acc.entries suiteName suite }

/-- `BenchmarksPublisher.mergeResults`, as a function of its inputs (the
runs record is an ordered list of `fileName ↦ parsed results`; `now` stands
for `Date.now()`).  This value-level translation gives the *returned* merged
document; the in-place mutation of the input document performed by the
JavaScript code is modelled separately by `mergeResultsHeap` below. -/
def mergeResults (opts : PublishOptions) (existingData : BenchmarksData)
    (results : List (String × BenchmarkDotNetResults)) (commit : Commit)
    (now : Int) : BenchmarksData :=
  results.foldl (mergeStep opts commit now) { existingData with lastUpdated := now }

/-- The suffix of `l` of length `min n l.length` (the `n` most recently
appended elements). -/
def suffixKeep (n : Nat) (l : List α) : List α := l.drop (l.length - n)

/-- The effect of the cap on a suite, as a function: no cap means identity,
a cap `n` keeps the suffix of length `min n.toNat length`. -/
def capApply (mi : Option Int) (l : List Benchmark) : List Benchmark :=
  match mi with
  | none => l
  | some n => suffixKeep n.toNat l

/-- A sensibly configured cap: absent, or a positive count.  (A configured
cap of `0` is ignored by the code — see the C1 counterexample — and a
negative cap empties the suite.) -/
def capOk (opts : PublishOptions) : Prop :=
  opts.maxItems = none ∨ ∃ n : Int, opts.maxItems = some n ∧ 1 ≤ n

/-- The history entries a given suite receives from one merge call, in run
order. -/
def newEntriesFor (opts : PublishOptions)
    (runs : List (String × BenchmarkDotNetResults)) (commit : Commit)
    (now : Int) (s : String) : List Benchmark :=
  (runs.filter (fun r => suiteNameOf opts r.2 = s)).map (fun r => mkEntry commit now r.2)

theorem truncateSuite_eq_capApply (opts : PublishOptions) (hcap : capOk opts)
    (l : List Benchmark) : truncateSuite opts.maxItems l = capApply opts.maxItems l := by
  rcases hcap with h | ⟨n, hn, hn1⟩
  · rw [h]; rfl
  · simp only [hn, truncateSuite, capApply, suffixKeep, jsSliceFrom]
    by_cases hlen : (n : Int) < (l.length : Int)
    · have hne : n ≠ 0 := by omega
      rw [if_pos ⟨hne, hlen⟩]
      congr 1
      omega
    · rw [if_neg (by tauto)]
      have h0 : l.length - n.toNat = 0 := by omega
      rw [h0, List.drop_zero]

theorem suffixKeep_append_suffixKeep (m : Nat) (xs ys : List α) :
    suffixKeep m (suffixKeep m xs ++ ys) = suffixKeep m (xs ++ ys) := by
  unfold suffixKeep
  by_cases h : xs.length ≤ m
  · have h0 : xs.length - m = 0 := by omega
    rw [h0, List.drop_zero]
  · have hlen : (xs.drop (xs.length - m)).length = m := by
      rw [List.length_drop]; omega
    rw [List.length_append, hlen, List.length_append]
    have h1 : m + ys.length - m = ys.length := by omega
    rw [h1]
    have h3 : (xs ++ ys).drop (xs.length - m) = xs.drop (xs.length - m) ++ ys := by
      rw [List.drop_append_of_le_length (by omega)]
    rw [← h3, List.drop_drop]
    congr 1
    omega

theorem capApply_append_capApply (mi : Option Int) (xs ys : List Benchmark) :
    capApply mi (capApply mi xs ++ ys) = capApply mi (xs ++ ys) := by
  cases mi with
  | none => rfl
  | some n => exact suffixKeep_append_suffixKeep n.toNat xs ys

theorem newEntriesFor_cons (opts : PublishOptions)
    (r : String × BenchmarkDotNetResults) (rest : List (String × BenchmarkDotNetResults))
    (commit : Commit) (now : Int) (s : String) :
    newEntriesFor opts (r :: rest) commit now s =
      (if suiteNameOf opts r.2 = s then [mkEntry commit now r.2] else []) ++
        newEntriesFor opts rest commit now s := by
  unfold newEntriesFor
  by_cases h : suiteNameOf opts r.2 = s
  · simp [List.filter, h]
  · simp [List.filter, h]

theorem mergeStep_entries (opts : PublishOptions) (hcap : capOk opts)
    (commit : Commit) (now : Int) (acc : BenchmarksData)
    (run : String × BenchmarkDotNetResults) :
    (mergeStep opts commit now acc run).entries =
      setKey acc.entries (suiteNameOf opts run.2)
        (capApply opts.maxItems
          ((getKey acc.entries (suiteNameOf opts run.2)).getD [] ++
            [mkEntry commit now run.2])) := by
  unfold mergeStep
  simp only [truncateSuite_eq_capApply opts hcap]
  rfl

theorem mergeStep_lastUpdated (opts : PublishOptions) (commit : Commit) (now : Int)
    (acc : BenchmarksData) (run : String × BenchmarkDotNetResults) :
    (mergeStep opts commit now acc run).lastUpdated = acc.lastUpdated := rfl

theorem mergeStep_repoUrl (opts : PublishOptions) (commit : Commit) (now : Int)
    (acc : BenchmarksData) (run : String × BenchmarkDotNetResults) :
    (mergeStep opts commit now acc run).repoUrl = acc.repoUrl := rfl

theorem foldl_mergeStep_getKey (opts : PublishOptions) (hcap : capOk opts)
    (commit : Commit) (now : Int) :
    ∀ (runs : List (String × BenchmarkDotNetResults)) (d : BenchmarksData)
      (s : String),
      getKey (runs.foldl (mergeStep opts commit now) d).entries s =
        (if newEntriesFor opts runs commit now s = [] then getKey d.entries s
         else some (capApply opts.maxItems
           ((getKey d.entries s).getD [] ++ newEntriesFor opts runs commit now s))) := by
  intro runs
  induction runs with
  | nil =>
      intro d s
      simp [newEntriesFor]
  | cons r rest ih =>
      intro d s
      rw [List.foldl_cons, ih, newEntriesFor_cons]
      by_cases hs : suiteNameOf opts r.2 = s
      · have hstep : getKey (mergeStep opts commit now d r).entries s =
            some (capApply opts.maxItems
              ((getKey d.entries s).getD [] ++ [mkEntry commit now r.2])) := by
          have := mergeStep_entries opts hcap commit now d r
          rw [this, hs, getKey_setKey_self]
        rw [if_pos hs]
        by_cases hrest : newEntriesFor opts rest commit now s = []
        · rw [if_pos hrest, hrest, if_neg (by simp), hstep, List.append_nil]
        · rw [if_neg hrest, if_neg (by simp [hrest]), hstep]
          simp only [Option.getD_some]
          rw [capApply_append_capApply, List.append_assoc]
      · have hstep : getKey (mergeStep opts commit now d r).entries s =
            getKey d.entries s := by
          have := mergeStep_entries opts hcap commit now d r
          rw [this, getKey_setKey_ne _ _ _ _ (fun hc => hs hc.symm)]
        rw [if_neg hs, List.nil_append, hstep]

theorem foldl_mergeStep_lastUpdated (opts : PublishOptions) (commit : Commit)
    (now : Int) :
    ∀ (runs : List (String × BenchmarkDotNetResults)) (d : BenchmarksData),
      (runs.foldl (mergeStep opts commit now) d).lastUpdated = d.lastUpdated := by
  intro runs
  induction runs with
  | nil => intro d; rfl
  | cons r rest ih =>
      intro d
      rw [List.foldl_cons, ih, mergeStep_lastUpdated]

theorem foldl_mergeStep_repoUrl (opts : PublishOptions) (commit : Commit)
    (now : Int) :
    ∀ (runs : List (String × BenchmarkDotNetResults)) (d : BenchmarksData),
      (runs.foldl (mergeStep opts commit now) d).repoUrl = d.repoUrl := by
  intro runs
  induction runs with
  | nil => intro d; rfl
  | cons r rest ih =>
      intro d
      rw [List.foldl_cons, ih, mergeStep_repoUrl]

theorem mergeResults_getKey (opts : PublishOptions) (hcap : capOk opts)
    (doc : BenchmarksData) (runs : List (String × BenchmarkDotNetResults))
    (commit : Commit) (now : Int) (s : String) :
    getKey (mergeResults opts doc runs commit now).entries s =
      (if newEntriesFor opts runs commit now s = [] then getKey doc.entries s
       else some (capApply opts.maxItems
         ((getKey doc.entries s).getD [] ++ newEntriesFor opts runs commit now s))) := by
  unfold mergeResults
  exact foldl_mergeStep_getKey opts hcap commit now runs _ s

theorem mergeResults_lastUpdated (opts : PublishOptions) (doc : BenchmarksData)
    (runs : List (String × BenchmarkDotNetResults)) (commit : Commit) (now : Int) :
    (mergeResults opts doc runs commit now).lastUpdated = now := by
  unfold mergeResults
  rw [foldl_mergeStep_lastUpdated]

/-- A fault thrown by the remote REST client: the HTTP `status` the code
branches on (absent for non-HTTP errors, e.g. the unexpected-encoding
`Error`), plus a message. -/
structure ApiError where
  status : Option Nat
  msg : String
deriving DecidableEq, Repr

/-- The freshly initialized history document `getCurrentResults` synthesizes
when the results file is not found (`error.status === 404`). -/
def emptyHistory (opts : PublishOptions) : BenchmarksData :=
  { lastUpdated := 0
    repoUrl := opts.serverUrl ++ "/" ++ opts.runRepo
    entries := [] }

/-- `BenchmarksPublisher.getCurrentResults`, modelled at the remote-read
boundary: `fetched` is the outcome of `repos.getContent` followed by content
decoding and `JSON.parse` (document plus content sha on success, a thrown
error otherwise).  A 404 yields the empty document with an absent sha; any
other fault is rethrown unchanged. -/
def getCurrentResults (opts : PublishOptions)
    (fetched : Except ApiError (BenchmarksData × String)) :
    Except ApiError (BenchmarksData × Option String) :=
  match fetched with
  | .ok (d, sha) => .ok (d, some sha)
  | .error e =>
      if e.status = some 404 then .ok (emptyHistory opts, none)
      else .error e

/-- `BenchmarksPublisher.updateResults`, modelled at the remote-write
boundary: `attempt` is the outcome of `repos.createOrUpdateFileContents`
with the previously observed sha as precondition.  A 409 (write conflict)
returns `false`; success returns `true`; any other fault is rethrown. -/
def updateResults (attempt : Except ApiError Unit) : Except ApiError Bool :=
  match attempt with
  | .ok _ => .ok true
  | .error e => if e.status = some 409 then .ok false else .error e

/-- `suite.length > 1 ? suite[suite.length - 2] : null` in `publishResults`. -/
def secondLast (l : List α) : Option α :=
  if 1 < l.length then l[l.length - 2]? else none

/-- The inner loop of `publishResults` that builds the `BenchmarksDelta`
list of one suite: each point of the newest entry is paired with the
same-named point of the previous entry found by `find`; points with no
match (or with no previous entry at all) are skipped (`continue`). -/
def pairsOf (currentBenchmark : Benchmark) (previousBenchmark : Option Benchmark) :
    List BenchmarksDelta :=
  currentBenchmark.benches.filterMap (fun current =>
    match previousBenchmark with
    | none => none
    | some pb =>
        (pb.benches.find? (fun b => b.name = current.name)).map
          (fun previous => { current := current, previous := some previous }))

/-- The delta list of one suite: pairs between `suite[suite.length - 1]` and
`suite[suite.length - 2]` (empty when the suite has fewer than two entries).
Only meaningful for nonempty suites; `computeDeltas` models the empty case. -/
def suitePairs (suite : List Benchmark) : List BenchmarksDelta :=
  match suite.getLast? with
  | none => []
  | some cur => pairsOf cur (secondLast suite)

/-- The delta-building loop `for (const suiteName in merged.entries)` of
`publishResults`.  Every suite of the merged document contributes a key.  An
empty suite makes `suite[suite.length - 1]` `undefined` and the subsequent
`.benches` access throw a `TypeError`; that crash is modelled as `none`. -/
def computeDeltas (entries : List (String × List Benchmark)) :
    Option (List (String × List BenchmarksDelta)) :=
  entries.mapM (fun p =>
    match p.2.getLast? with
    | none => none
    | some cur => some (p.1, pairsOf cur (secondLast p.2)))

/-- The remote store's behaviour during one attempt of the retry loop: the
outcome of the read (`getContent` + decode) and of the conditional write. -/
structure AttemptEnv where
  fetched : Except ApiError (BenchmarksData × String)
  putOutcome : Except ApiError Unit

/-- An error escaping `publishResults`: a rethrown API fault, or an `Error`
built locally (retry exhaustion; the `TypeError` crash on an empty suite). -/
inductive PublishError where
  | api (e : ApiError)
  | failure (msg : String)
deriving DecidableEq, Repr

/-- `const maxRetries = 3` in `publishResults`. -/
def maxRetries : Nat := 3

/-- The `while (attempts < maxRetries)` loop of `publishResults`, recursing
on the remaining attempt budget.  Returns the outcome together with the
number of loop iterations (read-merge-write cycles) started.  The remote is
an oracle `env` mapping the attempt index to that attempt's outcomes; each
iteration reads the state anew via `env attempts`. -/
def publishLoop (opts : PublishOptions) (env : Nat → AttemptEnv)
    (benchmarks : List (String × BenchmarkDotNetResults)) (commit : Commit)
    (now : Int) :
    Nat → Nat →
      Except PublishError
        (BenchmarksData × List (String × List BenchmarksDelta)) × Nat
  | attempts, 0 =>
      (.error (.failure
        ("Failed to update results after " ++ toString maxRetries ++ " attempts.")),
       attempts)
  | attempts, remaining + 1 =>
      match getCurrentResults opts (env attempts).fetched with
      | .error e => (.error (.api e), attempts + 1)
      | .ok (data, _sha) =>
          let merged := mergeResults opts data benchmarks commit now
          match updateResults (env attempts).putOutcome with
          | .error e => (.error (.api e), attempts + 1)
          | .ok true =>
              match computeDeltas merged.entries with
              | some ds => (.ok (merged, ds), attempts + 1)
              | none => (.error (.failure "TypeError"), attempts + 1)
          | .ok false =>
              publishLoop opts env benchmarks commit now (attempts + 1) remaining

/-- `BenchmarksPublisher.publishResults` (the commit descriptor has already
been fetched once, before the loop). -/
def publishResults (opts : PublishOptions) (env : Nat → AttemptEnv)
    (benchmarks : List (String × BenchmarkDotNetResults)) (commit : Commit)
    (now : Int) :
    Except PublishError
      (BenchmarksData × List (String × List BenchmarksDelta)) × Nat :=
  publishLoop opts env benchmarks commit now 0 maxRetries

/-- The per-delta body of `processDeltas`: the records pushed for one
`BenchmarksDelta` (duration first, then memory), with the source's guards:
a `null` previous or a previous duration value `=== 0` skips the pair
entirely; the memory evaluation additionally requires both bytes-allocated
figures to be present and truthy (nonzero). -/
def evalDelta (durationThreshold memoryThreshold : JsVal)
    (delta : BenchmarksDelta) : List BenchmarkRegression :=
  match delta.previous with
  | none => []
  | some previous =>
      if previous.value = JsVal.num 0 then []
      else
        let current := delta.current
        let durationDelta := jsSub current.value previous.value
        let durationR := jsDiv durationDelta previous.value
        let durationPercentage := jsMul durationR (.num 100)
        let durRecs : List BenchmarkRegression :=
          if jsGtB durationR durationThreshold then
            [{ name := current.name, type := .duration, current := current.value,
               previous := previous.value, percentage := durationPercentage,
               ratioValue := durationR }]
          else []
        let memRecs : List BenchmarkRegression :=
          match current.bytesAllocated, previous.bytesAllocated with
          | some cb, some pb =>
              if jsTruthy cb && jsTruthy pb then
                let memoryDelta := jsSub cb pb
                let memoryR := jsDiv memoryDelta pb
                let memoryPercentage := jsMul memoryR (.num 100)
                if jsGtB memoryR memoryThreshold then
                  [{ name := current.name, type := .memory, current := cb,
                     previous := pb, percentage := memoryPercentage,
                     ratioValue := memoryR }]
                else []
              else []
          | _, _ => []
        durRecs ++ memRecs

/-- `BenchmarksPublisher.processDeltas`: thresholds default to `2` via `??`;
returns `hasRegressions` together with the per-suite regression lists. -/
def processDeltas (opts : PublishOptions)
    (deltas : List (String × List BenchmarksDelta)) :
    Bool × List (String × List BenchmarkRegression) :=
  let durationThreshold := opts.failThresholdDuration.getD (.num 2)
  let memoryThreshold := opts.failThresholdMemory.getD (.num 2)
  let regressions := deltas.map (fun p =>
    (p.1, p.2.flatMap (evalDelta durationThreshold memoryThreshold)))
  (regressions.any (fun p => !p.2.isEmpty), regressions)

/-- The watermark embedded in every posted regression comment
(`private readonly commentWatermark`). -/
def commentWatermark : String := "<!-- martincostello/benchmarkdotnet-results-publisher -->"

/-- Character-list test: does `s` start with `sub`? -/
def charsStartWith : List Char → List Char → Bool
  | _, [] => true
  | [], _ :: _ => false
  | a :: s, b :: t => a = b && charsStartWith s t

/-- Character-list test: does `sub` occur contiguously inside `s`? -/
def charsHaveSegment (sub : List Char) : List Char → Bool
  | [] => sub.isEmpty
  | a :: rest => charsStartWith (a :: rest) sub || charsHaveSegment sub rest

/-- `String.prototype.includes`. -/
def jsIncludes (s sub : String) : Bool := charsHaveSegment sub.data s.data

/-- `Array.prototype.join(sep)`. -/
def jsJoin (sep : String) : List String → String
  | [] => ""
  | [x] => x
  | x :: y :: rest => x ++ sep ++ jsJoin sep (y :: rest)

/-- The tail of `BenchmarksPublisher.leaveComment` (source lines 742-752):
after the report lines, a blank line, the robot footer, a blank line, the
watermark and a final blank line are pushed, and the comment is
`comment.join('\n')`. -/
def finalizeComment (lines : List String) (workflowRunUrl : String) : String :=
  jsJoin "\n" (lines ++
    ["",
     "<sub>:robot: This comment was generated from [this workflow](" ++
       workflowRunUrl ++
       ") by [benchmarkdotnet-results-publisher](https://github.com/martincostello/benchmarkdotnet-results-publisher).</sub>",
     "",
     commentWatermark,
     ""])

/-- A comment on the PR/issue thread, as returned by `issues.listComments`. -/
structure IssueComment where
  id : Nat
  body : String
deriving DecidableEq, Repr

/-- `BenchmarksPublisher.postCommentOnPullRequest`, modelled as its effect on
the thread's comment list: search the existing comments for the first one
containing the watermark; if one is found (and its id is truthy), update it
in place via `issues.updateComment`; otherwise create a new comment (with the
fresh id the server would assign) via `issues.createComment`. -/
def upsertComment (comments : List IssueComment) (newCommentId : Nat)
    (body : String) : List IssueComment :=
  let comment_id : Option Nat :=
    if 0 < comments.length then
      (comments.find? (fun item => jsIncludes item.body commentWatermark)).map
        (fun c => c.id)
    else none
  match comment_id with
  | some cid =>
      if cid ≠ 0 then
        comments.map (fun c => if c.id = cid then { c with body := body } else c)
      else comments ++ [{ id := newCommentId, body := body }]
  | none => comments ++ [{ id := newCommentId, body := body }]

/-- The number of comments on the thread containing the watermark. -/
def countWatermarked (comments : List IssueComment) : Nat :=
  (comments.filter (fun c => jsIncludes c.body commentWatermark)).length

/-- `BenchmarksPublisher.publish` proceeds to publishing exactly when the
parsed-results record is nonempty
(`const count = Object.keys(benchmarks).length; if (count > 0)`); otherwise
it emits the warning `'No BenchmarkDotNet results found to publish.'`. -/
def publishProceeds (benchmarks : List (String × BenchmarkDotNetResults)) : Bool :=
  decide (0 < benchmarks.length)

/-- The top-level history document with JavaScript reference semantics: the
`entries` field is a *reference* to an entries object living in a heap.
`{ ...existingData, lastUpdated: now }` copies this reference, not the
object. -/
structure HeapDoc where
  lastUpdated : Int
  repoUrl : String
  entriesRef : Nat
deriving DecidableEq, Repr

/-- A heap for the reference-level model of `mergeResults`: entries objects
(suite name ↦ suite-array reference) and suite arrays, addressed by index. -/
structure MergeHeap where
  entriesObjs : List (List (String × Nat))
  suiteArrays : List (List Benchmark)
deriving DecidableEq, Repr

/-- Read an entries object from the heap. -/
def getObj (h : MergeHeap) (r : Nat) : List (String × Nat) := (h.entriesObjs[r]?).getD []

/-- Read a suite array from the heap. -/
def getArr (h : MergeHeap) (r : Nat) : List Benchmark := (h.suiteArrays[r]?).getD []

/-- Overwrite an entries object in the heap. -/
def setObj (h : MergeHeap) (r : Nat) (o : List (String × Nat)) : MergeHeap :=
  { h with entriesObjs := h.entriesObjs.set r o }

/-- Overwrite a suite array in the heap (in-place array mutation). -/
def setArr (h : MergeHeap) (r : Nat) (a : List Benchmark) : MergeHeap :=
  { h with suiteArrays := h.suiteArrays.set r a }

/-- Allocate a fresh suite array, returning the heap and the new reference. -/
def allocArr (h : MergeHeap) (a : List Benchmark) : MergeHeap × Nat :=
  ({ h with suiteArrays := h.suiteArrays ++ [a] }, h.suiteArrays.length)

/-- One iteration of the `mergeResults` loop with JavaScript reference
semantics.  When the suite already exists, `suite.push(...)` mutates the
array in place (visible through every alias, including the input document);
`suite.slice(...)` allocates a fresh array, and the final
`mergedData.entries[suiteName] = suite` writes into the entries object shared
with the input document.  (Arrays that become unreachable are not
garbage-collected by the model.) -/
def mergeStepHeap (opts : PublishOptions) (commit : Commit) (now : Int)
    (entriesRef : Nat) (h : MergeHeap) (run : String × BenchmarkDotNetResults) :
    MergeHeap :=
  let result := run.2
  let suiteName := suiteNameOf opts result
  let entriesObj := getObj h entriesRef
  let items := result.Benchmarks.map mkItem
  let entry : Benchmark := { commit := commit, date := now, benches := items }
  match getKey entriesObj suiteName with
  | some aref =>
      let h1 := setArr h aref (getArr h aref ++ [entry])
      let pushed := getArr h1 aref
      match opts.maxItems with
      | some n =>
          if n ≠ 0 ∧ (n : Int) < (pushed.length : Int) then
            let alloc := allocArr h1 (jsSliceFrom pushed ((pushed.length : Int) - n))
            setObj alloc.1 entriesRef (setKey entriesObj suiteName alloc.2)
          else
            setObj h1 entriesRef (setKey entriesObj suiteName aref)
      | none => setObj h1 entriesRef (setKey entriesObj suiteName aref)
  | none =>
      let pushed := [entry]
      match opts.maxItems with
      | some n =>
          if n ≠ 0 ∧ (n : Int) < (pushed.length : Int) then
            let alloc := allocArr h (jsSliceFrom pushed ((pushed.length : Int) - n))
            setObj alloc.1 entriesRef (setKey entriesObj suiteName alloc.2)
          else
            let alloc := allocArr h pushed
            setObj alloc.1 entriesRef (setKey entriesObj suiteName alloc.2)
      | none =>
          let alloc := allocArr h pushed
          setObj alloc.1 entriesRef (setKey entriesObj suiteName alloc.2)

/-- `BenchmarksPublisher.mergeResults` with JavaScript reference semantics:
`const mergedData = { ...existingData, lastUpdated: now }` is a *shallow*
copy — the returned document holds the same `entries` reference as the input
document — and the loop then updates the heap through that shared
reference. -/
def mergeResultsHeap (opts : PublishOptions) (h : MergeHeap) (doc : HeapDoc)
    (runs : List (String × BenchmarkDotNetResults)) (commit : Commit)
    (now : Int) : MergeHeap × HeapDoc :=
  let mergedData : HeapDoc := { doc with lastUpdated := now }
  (runs.foldl (mergeStepHeap opts commit now mergedData.entriesRef) h, mergedData)

/-- A concrete user for test fixtures. -/
def userX : GitHubUser := ⟨some "octocat"⟩

/-- A concrete commit descriptor for test fixtures. -/
def commitX : Commit :=
  ⟨userX, userX, "abc123", "msg", some "2024-08-17T12:34:56Z", "https://e.com/c"⟩

/-- Default options: no suite-name override, no cap, default thresholds. -/
def optsBase : PublishOptions :=
  ⟨none, none, none, none, "https://github.com", "owner/repo"⟩

/-- Options with a configured cap of `0`. -/
def opts0 : PublishOptions := ⟨none, some 0, none, none, "s", "r"⟩

/-- Options with a configured cap of `2`. -/
def opts2 : PublishOptions := ⟨none, some 2, none, none, "s", "r"⟩

/-- A parsed run whose title derives the suite name `New`. -/
def runNew : String × BenchmarkDotNetResults := ("f.json", ⟨"New-x", []⟩)

/-- An empty history document fixture. -/
def doc0 : BenchmarksData := ⟨0, "u", []⟩

/-- C3: when the remote read of the results file reports not-found
(status 404) on an existing branch, `getCurrentResults` returns the empty
history document (`entries = {}`, `lastUpdated = 0`,
`repoUrl = serverUrl/runRepo`) with an absent sha, and does not raise; any
non-404 fault from the read propagates unchanged. -/
theorem getCurrentResults_notFound_spec (opts : PublishOptions) (e : ApiError) :
    (e.status = some 404 →
      getCurrentResults opts (.error e) =
        .ok ({ lastUpdated := 0, repoUrl := opts.serverUrl ++ "/" ++ opts.runRepo,
               entries := [] }, none))
    ∧ (e.status ≠ some 404 → getCurrentResults opts (.error e) = .error e) := by
  constructor
  · intro h
    simp only [getCurrentResults]
    rw [if_pos h]
    rfl
  · intro h
    simp only [getCurrentResults]
    rw [if_neg h]

/-- Witness for `getCurrentResults_notFound_spec` at concrete inputs. -/
theorem getCurrentResults_notFound_spec_witness :
    getCurrentResults optsBase (.error ⟨some 404, "Not Found"⟩) =
      .ok ({ lastUpdated := 0,
             repoUrl := optsBase.serverUrl ++ "/" ++ optsBase.runRepo,
             entries := [] }, none)
    ∧ getCurrentResults optsBase (.error ⟨some 500, "server error"⟩) =
        .error ⟨some 500, "server error"⟩ :=
  ⟨(getCurrentResults_notFound_spec optsBase ⟨some 404, "Not Found"⟩).1 rfl,
   (getCurrentResults_notFound_spec optsBase ⟨some 500, "server error"⟩).2 (by decide)⟩

/-- C4: `updateResults` returns `false` (rather than raising) exactly when
the remote create-or-update reports a write conflict (status 409); on
success it returns `true`; any other fault propagates unchanged. -/
theorem updateResults_conflict_spec (e : ApiError) :
    updateResults (.ok ()) = .ok true
    ∧ (e.status = some 409 → updateResults (.error e) = .ok false)
    ∧ (e.status ≠ some 409 → updateResults (.error e) = .error e) := by
  refine ⟨rfl, ?_, ?_⟩
  · intro h
    simp only [updateResults]
    rw [if_pos h]
  · intro h
    simp only [updateResults]
    rw [if_neg h]

/-- Witness for `updateResults_conflict_spec` at concrete inputs. -/
theorem updateResults_conflict_spec_witness :
    updateResults (.ok ()) = .ok true
    ∧ updateResults (.error ⟨some 409, "Conflict"⟩) = .ok false
    ∧ updateResults (.error ⟨some 403, "Forbidden"⟩) = .error ⟨some 403, "Forbidden"⟩ :=
  ⟨(updateResults_conflict_spec ⟨some 409, "Conflict"⟩).1,
   (updateResults_conflict_spec ⟨some 409, "Conflict"⟩).2.1 rfl,
   (updateResults_conflict_spec ⟨some 403, "Forbidden"⟩).2.2 (by decide)⟩

/-- Does the record list contain a regression of the given kind? -/
def hasRegOfType (t : RegressionType) (recs : List BenchmarkRegression) : Bool :=
  recs.any (fun r => r.type = t)

theorem evalDelta_duration_eq (durT memT : JsVal) (d : BenchmarksDelta) :
    hasRegOfType .duration (evalDelta durT memT d) =
      (match d.previous with
       | none => false
       | some p =>
           if p.value = JsVal.num 0 then false
           else jsGtB (jsDiv (jsSub d.current.value p.value) p.value) durT) := by
  cases hp : d.previous with
  | none => simp [evalDelta, hasRegOfType, hp]
  | some p =>
      by_cases hz : p.value = JsVal.num 0
      · simp [evalDelta, hp, hz, hasRegOfType]
      · simp only [evalDelta, hp, if_neg hz]
        unfold hasRegOfType
        rw [List.any_append]
        cases hgt : jsGtB (jsDiv (jsSub d.current.value p.value) p.value) durT <;>
          rcases hcb : d.current.bytesAllocated with _ | cb <;>
          rcases hpb : p.bytesAllocated with _ | pb <;>
          simp [hgt, hcb, hpb] <;>
          first
            | (intro x h1 h2 h3 hx; subst hx; simp)
            | (split_ifs <;> simp_all)

theorem evalDelta_memory_eq (durT memT : JsVal) (d : BenchmarksDelta) :
    hasRegOfType .memory (evalDelta durT memT d) =
      (match d.previous with
       | none => false
       | some p =>
           if p.value = JsVal.num 0 then false
           else
             match d.current.bytesAllocated, p.bytesAllocated with
             | some cb, some pb =>
                 if jsTruthy cb && jsTruthy pb
                 then jsGtB (jsDiv (jsSub cb pb) pb) memT else false
             | _, _ => false) := by
  cases hp : d.previous with
  | none => simp [evalDelta, hasRegOfType, hp]
  | some p =>
      by_cases hz : p.value = JsVal.num 0
      · simp [evalDelta, hp, hz, hasRegOfType]
      · simp only [evalDelta, hp, if_neg hz]
        unfold hasRegOfType
        rw [List.any_append]
        cases hgt : jsGtB (jsDiv (jsSub d.current.value p.value) p.value) durT <;>
          rcases hcb : d.current.bytesAllocated with _ | cb <;>
          rcases hpb : p.bytesAllocated with _ | pb <;>
          simp [hgt, hcb, hpb] <;>
          first
            | (intro x h1 h2 h3 hx; subst hx; simp)
            | (split_ifs <;> simp_all)

/-- C5: a duration `BenchmarkRegression` is recorded for a delta pair if and
only if the previous point is present with a nonzero value and the ratio
`(current − previous) / previous` is strictly greater than the duration
threshold; with the default threshold `2`, previous `100` and current `310`
(ratio `2.1`) is flagged while current `300` (ratio exactly `2.0`) is not —
the boundary is exclusive; pairs with an absent or zero previous value are
skipped.  The last conjunct checks that `processDeltas` applies `evalDelta`
with thresholds defaulted to `2`. -/
theorem processDeltas_duration_iff :
    (∀ (durT memT : JsVal) (d : BenchmarksDelta),
      hasRegOfType .duration (evalDelta durT memT d) = true ↔
        ∃ p, d.previous = some p ∧ p.value ≠ JsVal.num 0 ∧
          jsGtB (jsDiv (jsSub d.current.value p.value) p.value) durT = true)
    ∧ hasRegOfType .duration (evalDelta (.num 2) (.num 2)
        ⟨⟨"b", .num 310, none, "ns", none⟩,
         some ⟨"b", .num 100, none, "ns", none⟩⟩) = true
    ∧ hasRegOfType .duration (evalDelta (.num 2) (.num 2)
        ⟨⟨"b", .num 300, none, "ns", none⟩,
         some ⟨"b", .num 100, none, "ns", none⟩⟩) = false
    ∧ (∀ deltas, (processDeltas optsBase deltas).2 =
        deltas.map (fun p => (p.1, p.2.flatMap (evalDelta (.num 2) (.num 2))))) := by
  refine ⟨?_, ?_, ?_, fun deltas => rfl⟩
  · intro durT memT d
    rw [evalDelta_duration_eq]
    cases hp : d.previous with
    | none => simp
    | some p =>
        by_cases hz : p.value = JsVal.num 0
        · simp [hz]
        · simp [hz]
  · rw [evalDelta_duration_eq]
    simp only [jsSub, jsDiv, jsGtB]
    norm_num
  · rw [evalDelta_duration_eq]
    simp only [jsSub, jsDiv, jsGtB]
    norm_num

theorem getLast?_drop_of_lt (l : List α) (k : Nat) (h : k < l.length) :
    (l.drop k).getLast? = l.getLast? := by
  induction l generalizing k with
  | nil => simp at h
  | cons a t ih =>
      cases k with
      | zero => rfl
      | succ j =>
          simp only [List.drop_succ_cons]
          have hj : j < t.length := by simpa using h
          rw [ih j hj]
          cases t with
          | nil => simp at hj
          | cons b t' => simp [List.getLast?_cons_cons]

theorem suffixKeep_length_le (n : Nat) (l : List α) : (suffixKeep n l).length ≤ n := by
  unfold suffixKeep
  rw [List.length_drop]
  omega

theorem suffixKeep_getLast?_append (n : Nat) (hn : 1 ≤ n) (xs ys : List α)
    (hys : ys ≠ []) :
    (suffixKeep n (xs ++ ys)).getLast? = ys.getLast? := by
  unfold suffixKeep
  have hpos : 0 < ys.length := List.length_pos.mpr hys
  rw [getLast?_drop_of_lt]
  · obtain ⟨v, hv⟩ := Option.isSome_iff_exists.mp (List.getLast?_isSome.mpr hys)
    rw [List.getLast?_append, hv]
    rfl
  · rw [List.length_append]
    omega

/-- C1 counterexample: a configured cap of `0` is a falsy `maxItems`, so the
truncation branch is skipped entirely: merging one run into an empty history
leaves the suite with 1 entry, and `1 ≤ 0` fails — the claim's invariant
"entry count ≤ N for every configured cap N" does not hold at `N = 0`. -/
theorem mergeResults_cap_zero_counterexample :
    opts0.maxItems = some 0
    ∧ newEntriesFor opts0 [("file.json", ⟨"S-test", []⟩)] commitX 100 "S" ≠ []
    ∧ (getKey (mergeResults opts0 doc0 [("file.json", ⟨"S-test", []⟩)] commitX 100).entries
        "S").map List.length = some 1
    ∧ ¬(1 ≤ 0) := by decide

/-- C1 (amended to positive caps): for every existing history document,
every run list and every configured cap `N ≥ 1`, each suite `s` that
received at least one new entry holds exactly the suffix of length
`min N total` of (old entries ++ new entries in append order) — truncation
drops from the front, oldest first —, its entry count is at most `N`, and
the last new entry sits at the end of the suite's sequence. -/
theorem mergeResults_cap_spec (opts : PublishOptions) (doc : BenchmarksData)
    (runs : List (String × BenchmarkDotNetResults)) (commit : Commit) (now : Int)
    (n : Int) (hM : opts.maxItems = some n) (h1 : 1 ≤ n) (s : String)
    (hnew : newEntriesFor opts runs commit now s ≠ []) :
    getKey (mergeResults opts doc runs commit now).entries s =
      some (suffixKeep n.toNat
        ((getKey doc.entries s).getD [] ++ newEntriesFor opts runs commit now s))
    ∧ (suffixKeep n.toNat
        ((getKey doc.entries s).getD [] ++
          newEntriesFor opts runs commit now s)).length ≤ n.toNat
    ∧ (suffixKeep n.toNat
        ((getKey doc.entries s).getD [] ++
          newEntriesFor opts runs commit now s)).getLast? =
        (newEntriesFor opts runs commit now s).getLast? := by
  have hcap : capOk opts := Or.inr ⟨n, hM, h1⟩
  refine ⟨?_, suffixKeep_length_le _ _, ?_⟩
  · rw [mergeResults_getKey opts hcap doc runs commit now s, if_neg hnew, hM]
    rfl
  · exact suffixKeep_getLast?_append n.toNat (by omega) _ _ hnew

/-- History entry fixture. -/
def entS1 : Benchmark := ⟨commitX, 1, []⟩

/-- History entry fixture. -/
def entS2 : Benchmark := ⟨commitX, 2, []⟩

/-- A history document whose suite `S` already has two entries. -/
def doc1 : BenchmarksData := ⟨0, "u", [("S", [entS1, entS2])]⟩

/-- A run whose title derives the suite name `S`. -/
def runS : String × BenchmarkDotNetResults := ("g.json", ⟨"S-x", []⟩)

/-- Witness for `mergeResults_cap_spec`: cap 2, a suite with 2 existing
entries, one new entry. -/
theorem mergeResults_cap_spec_witness :
    getKey (mergeResults opts2 doc1 [runS] commitX 100).entries "S" =
      some (suffixKeep (2 : Int).toNat
        ((getKey doc1.entries "S").getD [] ++ newEntriesFor opts2 [runS] commitX 100 "S"))
    ∧ (suffixKeep (2 : Int).toNat
        ((getKey doc1.entries "S").getD [] ++
          newEntriesFor opts2 [runS] commitX 100 "S")).length ≤ (2 : Int).toNat
    ∧ (suffixKeep (2 : Int).toNat
        ((getKey doc1.entries "S").getD [] ++
          newEntriesFor opts2 [runS] commitX 100 "S")).getLast? =
        (newEntriesFor opts2 [runS] commitX 100 "S").getLast? :=
  mergeResults_cap_spec opts2 doc1 [runS] commitX 100 2 rfl (by decide) "S" (by decide)

/-- C10: a result file that parses successfully but whose `Benchmarks`
sequence is empty still counts as a found result: `publish` proceeds (the
"nothing to publish" warning is not emitted since the results record has a
key), and `mergeResults` appends to that file's suite a history entry whose
benchmark-point sequence is empty, carrying the cycle's commit descriptor
and timestamp (stated for an absent or positive cap, where the appended
entry survives truncation). -/
theorem publish_empty_benchmarks_spec (opts : PublishOptions) (doc : BenchmarksData)
    (f title : String) (commit : Commit) (now : Int) (hcap : capOk opts) :
    publishProceeds [(f, ⟨title, []⟩)] = true
    ∧ ((getKey (mergeResults opts doc [(f, ⟨title, []⟩)] commit now).entries
          (suiteNameOf opts ⟨title, []⟩)).bind List.getLast?) =
        some ⟨commit, now, []⟩ := by
  constructor
  · rfl
  · have hnew : newEntriesFor opts [(f, ⟨title, []⟩)] commit now
        (suiteNameOf opts ⟨title, []⟩) = [⟨commit, now, []⟩] := by
      simp [newEntriesFor, mkEntry, List.filter]
    rw [mergeResults_getKey opts hcap doc _ commit now _, hnew]
    rw [if_neg (by simp)]
    simp only [Option.some_bind]
    rcases hcap with h | ⟨n, hn, hn1⟩
    · rw [h]
      unfold capApply
      rw [List.getLast?_concat]
    · rw [hn]
      unfold capApply
      rw [suffixKeep_getLast?_append n.toNat (by omega) _ _ (by simp)]
      rfl

/-- Witness for `publish_empty_benchmarks_spec` at concrete inputs. -/
theorem publish_empty_benchmarks_spec_witness :
    publishProceeds [("f.json", ⟨"T-x", []⟩)] = true
    ∧ ((getKey (mergeResults optsBase doc0 [("f.json", ⟨"T-x", []⟩)] commitX 100).entries
          (suiteNameOf optsBase ⟨"T-x", []⟩)).bind List.getLast?) =
        some ⟨commitX, 100, []⟩ :=
  publish_empty_benchmarks_spec optsBase doc0 "f.json" "T-x" commitX 100 (Or.inl rfl)

/-- Did the `Except` computation succeed? -/
def exceptOk : Except ε α → Bool
  | .ok _ => true
  | .error _ => false

theorem exceptOk_exists {x : Except ε α} (h : exceptOk x = true) :
    ∃ y, x = .ok y := by
  cases x with
  | ok y => exact ⟨y, rfl⟩
  | error e => simp [exceptOk] at h

/-- Every suite sequence of the document is nonempty (true of every document
the code itself writes, since entries are only ever appended). -/
def suitesNonempty (d : BenchmarksData) : Prop := ∀ p ∈ d.entries, p.2 ≠ []

theorem mem_setKey (m : List (String × α)) (k : String) (v : α) (q : String × α)
    (hq : q ∈ setKey m k v) : q = (k, v) ∨ q ∈ m := by
  unfold setKey at hq
  by_cases h : m.any (fun p => p.1 = k)
  · rw [if_pos h] at hq
    obtain ⟨p, hp, hfp⟩ := List.mem_map.mp hq
    by_cases hpk : p.1 = k
    · left
      rw [← hfp]
      simp [hpk]
    · right
      rw [← hfp]
      simp only [if_neg hpk]
      exact hp
  · rw [if_neg h] at hq
    rcases List.mem_append.mp hq with h1 | h1
    · right; exact h1
    · left; simpa using h1

theorem capApply_ne_nil (opts : PublishOptions) (hcap : capOk opts)
    (l : List Benchmark) (hl : l ≠ []) : capApply opts.maxItems l ≠ [] := by
  rcases hcap with h | ⟨n, hn, hn1⟩
  · rw [h]; exact hl
  · rw [hn]
    unfold capApply suffixKeep
    intro hc
    have hpos := List.length_pos.mpr hl
    have hlen := congrArg List.length hc
    rw [List.length_drop] at hlen
    simp only [List.length_nil] at hlen
    omega

theorem mergeStep_preserves_nonempty (opts : PublishOptions) (hcap : capOk opts)
    (commit : Commit) (now : Int) (acc : BenchmarksData)
    (run : String × BenchmarkDotNetResults)
    (h : ∀ p ∈ acc.entries, p.2 ≠ []) :
    ∀ p ∈ (mergeStep opts commit now acc run).entries, p.2 ≠ [] := by
  intro p hp
  rw [mergeStep_entries opts hcap] at hp
  rcases mem_setKey _ _ _ _ hp with he | he
  · rw [he]
    exact capApply_ne_nil opts hcap _ (by simp)
  · exact h p he

theorem mergeResults_preserves_nonempty (opts : PublishOptions) (hcap : capOk opts)
    (doc : BenchmarksData) (runs : List (String × BenchmarkDotNetResults))
    (commit : Commit) (now : Int) (h : suitesNonempty doc) :
    suitesNonempty (mergeResults opts doc runs commit now) := by
  unfold mergeResults suitesNonempty
  have base : ∀ p ∈ (({ doc with lastUpdated := now } : BenchmarksData)).entries, p.2 ≠ [] := h
  revert base
  generalize ({ doc with lastUpdated := now } : BenchmarksData) = d
  intro base
  induction runs generalizing d with
  | nil => exact base
  | cons r rest ih =>
      rw [List.foldl_cons]
      exact ih _ (mergeStep_preserves_nonempty opts hcap commit now d r base)

theorem computeDeltas_eq_of_nonempty (entries : List (String × List Benchmark))
    (h : ∀ p ∈ entries, p.2 ≠ []) :
    computeDeltas entries = some (entries.map (fun p => (p.1, suitePairs p.2))) := by
  induction entries with
  | nil => rfl
  | cons p rest ih =>
      have hp : p.2 ≠ [] := h p (by simp)
      obtain ⟨cur, hcur⟩ := Option.isSome_iff_exists.mp (List.getLast?_isSome.mpr hp)
      have hrest := ih (fun q hq => h q (List.mem_cons_of_mem _ hq))
      unfold computeDeltas at hrest ⊢
      rw [List.mapM_cons, hcur, hrest]
      simp [suitePairs, hcur]

theorem publishLoop_cycles_le (opts : PublishOptions) (env : Nat → AttemptEnv)
    (benchmarks : List (String × BenchmarkDotNetResults)) (commit : Commit)
    (now : Int) :
    ∀ (remaining attempts : Nat),
      (publishLoop opts env benchmarks commit now attempts remaining).2 ≤
        attempts + remaining := by
  intro remaining
  induction remaining with
  | zero =>
      intro attempts
      simp [publishLoop]
  | succ r ih =>
      intro attempts
      unfold publishLoop
      cases hg : getCurrentResults opts (env attempts).fetched with
      | error e => simp
      | ok pair =>
          obtain ⟨data, sh⟩ := pair
          cases hu : updateResults (env attempts).putOutcome with
          | error e => simp
          | ok b =>
              cases b with
              | false =>
                  simp only []
                  have := ih (attempts + 1)
                  omega
              | true =>
                  cases hd : computeDeltas
                      (mergeResults opts data benchmarks commit now).entries with
                  | none => simp [hd]
                  | some ds => simp [hd]

theorem publishLoop_exhaust (opts : PublishOptions) (env : Nat → AttemptEnv)
    (benchmarks : List (String × BenchmarkDotNetResults)) (commit : Commit)
    (now : Int) :
    ∀ (remaining attempts : Nat),
      (∀ i, attempts ≤ i → i < attempts + remaining →
        exceptOk (getCurrentResults opts (env i).fetched) = true ∧
        updateResults (env i).putOutcome = .ok false) →
      publishLoop opts env benchmarks commit now attempts remaining =
        (.error (.failure
          ("Failed to update results after " ++ toString maxRetries ++ " attempts.")),
         attempts + remaining) := by
  intro remaining
  induction remaining with
  | zero =>
      intro attempts h
      simp [publishLoop]
  | succ r ih =>
      intro attempts h
      have h0 := h attempts (le_refl _) (by omega)
      obtain ⟨⟨data, sh⟩, hg⟩ := exceptOk_exists h0.1
      simp only [publishLoop, hg, h0.2]
      rw [ih (attempts + 1) (fun i h1 h2 => h i (by omega) (by omega))]
      have harith : attempts + 1 + r = attempts + (r + 1) := by omega
      rw [harith]

theorem publishLoop_success (opts : PublishOptions) (env : Nat → AttemptEnv)
    (benchmarks : List (String × BenchmarkDotNetResults)) (commit : Commit)
    (now : Int) (hcap : capOk opts) :
    ∀ (remaining attempts i : Nat), attempts ≤ i → i < attempts + remaining →
      (∀ j, attempts ≤ j → j < i →
        exceptOk (getCurrentResults opts (env j).fetched) = true ∧
        updateResults (env j).putOutcome = .ok false) →
      ∀ (d : BenchmarksData) (sh : Option String),
        getCurrentResults opts (env i).fetched = .ok (d, sh) →
        updateResults (env i).putOutcome = .ok true →
        suitesNonempty d →
        publishLoop opts env benchmarks commit now attempts remaining =
          (.ok (mergeResults opts d benchmarks commit now,
                (mergeResults opts d benchmarks commit now).entries.map
                  (fun p => (p.1, suitePairs p.2))), i + 1) := by
  intro remaining
  induction remaining with
  | zero =>
      intro attempts i h1 h2
      exact absurd h2 (by omega)
  | succ r ih =>
      intro attempts i h1 h2 hprior d sh hg hu hne
      by_cases hi : i = attempts
      · subst hi
        have hm := mergeResults_preserves_nonempty opts hcap d benchmarks commit now hne
        simp only [publishLoop, hg, hu]
        rw [computeDeltas_eq_of_nonempty _ hm]
      · have hstep := hprior attempts (le_refl _) (by omega)
        obtain ⟨⟨d0, sh0⟩, hg0⟩ := exceptOk_exists hstep.1
        simp only [publishLoop, hg0, hstep.2]
        exact ih (attempts + 1) i (by omega) (by omega)
          (fun j hj1 hj2 => hprior j (by omega) hj2) d sh hg hu hne

/-- C2: `publishResults` performs at most 3 read-merge-write cycles; if all
3 attempts hit a write conflict it throws an error naming the number of
attempts rather than returning silently; the first attempt whose conditional
write succeeds ends the loop after exactly that many cycles, yielding the
document merged from that attempt's freshly re-read remote state.  (The
success conjunct assumes a sensible cap and nonempty read suites so that the
delta computation after the write does not crash.) -/
theorem publishResults_retry_spec (opts : PublishOptions) (env : Nat → AttemptEnv)
    (benchmarks : List (String × BenchmarkDotNetResults)) (commit : Commit)
    (now : Int) :
    (publishResults opts env benchmarks commit now).2 ≤ 3
    ∧ ((∀ i, i < 3 →
          exceptOk (getCurrentResults opts (env i).fetched) = true ∧
          updateResults (env i).putOutcome = .ok false) →
        publishResults opts env benchmarks commit now =
          (.error (.failure "Failed to update results after 3 attempts."), 3))
    ∧ (∀ (i : Nat) (d : BenchmarksData) (sh : Option String), i < 3 →
        (∀ j, j < i →
          exceptOk (getCurrentResults opts (env j).fetched) = true ∧
          updateResults (env j).putOutcome = .ok false) →
        getCurrentResults opts (env i).fetched = .ok (d, sh) →
        updateResults (env i).putOutcome = .ok true →
        capOk opts → suitesNonempty d →
        ∃ ds, publishResults opts env benchmarks commit now =
          (.ok (mergeResults opts d benchmarks commit now, ds), i + 1)) := by
  refine ⟨?_, ?_, ?_⟩
  · have h := publishLoop_cycles_le opts env benchmarks commit now 3 0
    simpa [publishResults, maxRetries] using h
  · intro h
    have he := publishLoop_exhaust opts env benchmarks commit now 3 0
      (fun i h1 h2 => h i (by omega))
    simpa [publishResults, maxRetries] using he
  · intro i d sh hi hprior hg hu hcap hne
    exact ⟨_, publishLoop_success opts env benchmarks commit now hcap 3 0 i
      (by omega) (by omega) (fun j hj1 hj2 => hprior j hj2) d sh hg hu hne⟩

/-- A remote that reports a write conflict on every attempt. -/
def envAllConflict : Nat → AttemptEnv :=
  fun _ => ⟨.ok (doc0, "sha"), .error ⟨some 409, "Conflict"⟩⟩

/-- Benchmark point fixture. -/
def ptA1 : BenchmarkResult := ⟨"a", .num 1, none, "ns", none⟩

/-- Benchmark point fixture. -/
def ptA2 : BenchmarkResult := ⟨"a", .num 2, none, "ns", none⟩

/-- A history document whose (untouched) suite `Old` has two entries with a
matching-named point. -/
def docOld : BenchmarksData :=
  ⟨0, "u", [("Old", [⟨commitX, 1, [ptA1]⟩, ⟨commitX, 2, [ptA2]⟩])]⟩

/-- A remote whose read returns `docOld` and whose write always succeeds. -/
def envOld : Nat → AttemptEnv := fun _ => ⟨.ok (docOld, "sha1"), .ok ()⟩

/-- Witness for `publishResults_retry_spec`: all-conflict remote (3 cycles,
count-naming error) and first-try-success remote (1 cycle). -/
theorem publishResults_retry_spec_witness :
    (publishResults optsBase envAllConflict [runNew] commitX 100).2 ≤ 3
    ∧ publishResults optsBase envAllConflict [runNew] commitX 100 =
        (.error (.failure "Failed to update results after 3 attempts."), 3)
    ∧ ∃ ds, publishResults optsBase envOld [runNew] commitX 100 =
        (.ok (mergeResults optsBase docOld [runNew] commitX 100, ds), 1) := by
  refine ⟨(publishResults_retry_spec optsBase envAllConflict [runNew] commitX 100).1,
    (publishResults_retry_spec optsBase envAllConflict [runNew] commitX 100).2.1
      (fun i hi => ⟨rfl, rfl⟩), ?_⟩
  exact (publishResults_retry_spec optsBase envOld [runNew] commitX 100).2.2 0 docOld
    (some "sha1") (by omega) (fun j hj => absurd hj (by omega)) rfl rfl (Or.inl rfl)
    (by unfold suitesNonempty; decide)

/-- The delta map of a publish outcome (`none` when it errored). -/
def resultDeltas
    (r : Except PublishError (BenchmarksData × List (String × List BenchmarksDelta)) × Nat) :
    Option (List (String × List BenchmarksDelta)) :=
  match r.1 with
  | .ok (_, ds) => some ds
  | .error _ => none

/-- C6 counterexample: the delta loop iterates over *every* suite of the
merged document.  Here the only run targets suite `New`, yet the result
carries a nonempty delta list for the untouched suite `Old` (pairing its two
pre-existing entries) — contradicting "delta pairs for exactly the suites
that received a new entry". -/
theorem publishResults_deltas_counterexample :
    (resultDeltas (publishResults optsBase envOld [runNew] commitX 100)).map
        (fun ds => getKey ds "Old") = some (some [⟨ptA2, some ptA1⟩])
    ∧ newEntriesFor optsBase [runNew] commitX 100 "Old" = []
    ∧ suiteNameOf optsBase runNew.2 = "New" := by decide

/-- C6 (amended): after a successful write, `publishResults` yields a delta
list for every suite present in the merged document — including suites that
received no new entry this cycle — pairing each point of the suite's newest
entry with the same-named point of its second-newest entry (matched by
`find`); a suite with fewer than two entries yields an empty list, and
current points with no name match in the previous entry are skipped rather
than paired with a default. -/
theorem publishResults_deltas_spec (opts : PublishOptions) (env : Nat → AttemptEnv)
    (benchmarks : List (String × BenchmarkDotNetResults)) (commit : Commit)
    (now : Int) (i : Nat) (d : BenchmarksData) (sh : Option String)
    (hi : i < 3)
    (hprior : ∀ j, j < i →
      exceptOk (getCurrentResults opts (env j).fetched) = true ∧
      updateResults (env j).putOutcome = .ok false)
    (hg : getCurrentResults opts (env i).fetched = .ok (d, sh))
    (hu : updateResults (env i).putOutcome = .ok true)
    (hcap : capOk opts) (hne : suitesNonempty d) :
    publishResults opts env benchmarks commit now =
      (.ok (mergeResults opts d benchmarks commit now,
            (mergeResults opts d benchmarks commit now).entries.map
              (fun p => (p.1, suitePairs p.2))), i + 1)
    ∧ (∀ e : Benchmark, suitePairs [e] = [])
    ∧ (∀ cur : Benchmark, pairsOf cur none = []) := by
  refine ⟨publishLoop_success opts env benchmarks commit now hcap 3 0 i (by omega)
    (by omega) (fun j h1 h2 => hprior j h2) d sh hg hu hne, ?_, ?_⟩
  · intro e
    simp [suitePairs, secondLast, pairsOf]
  · intro cur
    simp [pairsOf]

/-- Witness for `publishResults_deltas_spec` at the `envOld` remote. -/
theorem publishResults_deltas_spec_witness :
    publishResults optsBase envOld [runNew] commitX 100 =
      (.ok (mergeResults optsBase docOld [runNew] commitX 100,
            (mergeResults optsBase docOld [runNew] commitX 100).entries.map
              (fun p => (p.1, suitePairs p.2))), 1)
    ∧ (∀ e : Benchmark, suitePairs [e] = [])
    ∧ (∀ cur : Benchmark, pairsOf cur none = []) :=
  publishResults_deltas_spec optsBase envOld [runNew] commitX 100 0 docOld
    (some "sha1") (by omega) (fun j hj => absurd hj (by omega)) rfl rfl (Or.inl rfl)
    (by unfold suitesNonempty; decide)

/-- The delta pair of the C7 counterexample: both points carry a nonzero
bytes-allocated figure and the memory ratio is `3`, but the previous
*duration* value is `0`. -/
def deltaMemBlocked : BenchmarksDelta :=
  ⟨⟨"b", .num 1, none, "ns", some (.num 400)⟩,
   some ⟨"b", .num 0, none, "ns", some (.num 100)⟩⟩

/-- C7 counterexample: the memory evaluation is *not* independent of the
pair-level guard — `if (!previous || previous.value === 0) continue` runs
before it.  Both points carry a bytes-allocated figure (400 and 100), the
memory ratio `(400 − 100)/100 = 3` strictly exceeds the default threshold
`2`, yet `processDeltas` records nothing because the previous duration
value is `0`. -/
theorem processDeltas_memory_counterexample :
    evalDelta (.num 2) (.num 2) deltaMemBlocked = []
    ∧ deltaMemBlocked.current.bytesAllocated = some (.num 400)
    ∧ (deltaMemBlocked.previous.map (fun p => p.bytesAllocated)) =
        some (some (.num 100))
    ∧ jsGtB (jsDiv (jsSub (.num 400) (.num 100)) (.num 100)) (.num 2) = true := by
  refine ⟨rfl, rfl, rfl, ?_⟩
  simp only [jsSub, jsDiv, jsGtB]
  norm_num

/-- C7 (amended): for every delta pair that passes the duration guard
(previous point present with nonzero duration value) and in which both the
current and the previous point carry a finite *nonzero* bytes-allocated
figure, `processDeltas` records a memory `BenchmarkRegression` exactly when
`(cb − pb)/pb` strictly exceeds the memory threshold; the duration flag is
evaluated independently, and the pair's total record count is the sum of
the two independent flags — zero, one, or two records. -/
theorem processDeltas_memory_spec (durT memT : JsVal) (d : BenchmarksDelta)
    (p : BenchmarkResult) (cb pb : ℚ)
    (hp : d.previous = some p) (hz : p.value ≠ JsVal.num 0)
    (hcb : d.current.bytesAllocated = some (.num cb))
    (hpb : p.bytesAllocated = some (.num pb))
    (hcb0 : cb ≠ 0) (hpb0 : pb ≠ 0) :
    hasRegOfType .memory (evalDelta durT memT d) =
      jsGtB (.num ((cb - pb) / pb)) memT
    ∧ hasRegOfType .duration (evalDelta durT memT d) =
      jsGtB (jsDiv (jsSub d.current.value p.value) p.value) durT
    ∧ (evalDelta durT memT d).length =
      (if jsGtB (jsDiv (jsSub d.current.value p.value) p.value) durT then 1 else 0) +
      (if jsGtB (.num ((cb - pb) / pb)) memT then 1 else 0) := by
  have hdiv : jsDiv (jsSub (.num cb) (.num pb)) (.num pb) = .num ((cb - pb) / pb) := by
    simp [jsSub, jsDiv, hpb0]
  have htr : (jsTruthy (.num cb) && jsTruthy (.num pb)) = true := by
    simp [jsTruthy, hcb0, hpb0]
  refine ⟨?_, ?_, ?_⟩
  · rw [evalDelta_memory_eq]
    simp only [hp, if_neg hz, hcb, hpb, htr, if_true, hdiv]
  · rw [evalDelta_duration_eq]
    simp only [hp, if_neg hz]
  · simp only [evalDelta, hp, if_neg hz, hcb, hpb, htr, if_true, hdiv,
      List.length_append]
    split_ifs <;> simp

/-- A delta pair passing the duration guard, with both bytes figures
present and nonzero. -/
def deltaMemBoth : BenchmarksDelta :=
  ⟨⟨"b", .num 10, none, "ns", some (.num 400)⟩,
   some ⟨"b", .num 1, none, "ns", some (.num 100)⟩⟩

/-- Witness for `processDeltas_memory_spec` at concrete inputs. -/
theorem processDeltas_memory_spec_witness :
    hasRegOfType .memory (evalDelta (.num 2) (.num 2) deltaMemBoth) =
      jsGtB (.num ((400 - 100) / 100)) (.num 2)
    ∧ hasRegOfType .duration (evalDelta (.num 2) (.num 2) deltaMemBoth) =
      jsGtB (jsDiv (jsSub deltaMemBoth.current.value (JsVal.num 1)) (JsVal.num 1))
        (.num 2)
    ∧ (evalDelta (.num 2) (.num 2) deltaMemBoth).length =
      (if jsGtB (jsDiv (jsSub deltaMemBoth.current.value (JsVal.num 1)) (JsVal.num 1))
          (.num 2) then 1 else 0) +
      (if jsGtB (.num ((400 - 100) / 100)) (.num 2) then 1 else 0) :=
  processDeltas_memory_spec (.num 2) (.num 2) deltaMemBoth
    ⟨"b", .num 1, none, "ns", some (.num 100)⟩ 400 100 rfl (by decide) rfl rfl
    (by norm_num) (by norm_num)

theorem charsStartWith_self_append (sub rest : List Char) :
    charsStartWith (sub ++ rest) sub = true := by
  induction sub with
  | nil => cases rest <;> rfl
  | cons a t ih => simp [charsStartWith, ih]

theorem charsHaveSegment_self_append (sub rest : List Char) :
    charsHaveSegment sub (sub ++ rest) = true := by
  cases sub with
  | nil =>
      cases rest with
      | nil => rfl
      | cons a t => simp [charsHaveSegment, charsStartWith]
  | cons b t =>
      simp only [List.cons_append, charsHaveSegment]
      have h := charsStartWith_self_append (b :: t) rest
      simp only [List.cons_append] at h
      simp [h]

theorem charsHaveSegment_append_right (sub s t : List Char)
    (h : charsHaveSegment sub t = true) :
    charsHaveSegment sub (s ++ t) = true := by
  induction s with
  | nil => simpa using h
  | cons a s' ih =>
      simp only [List.cons_append, charsHaveSegment]
      simp [ih]

theorem jsIncludes_jsJoin_of_mem (sep : String) (parts : List String) (x : String)
    (hx : x ∈ parts) : jsIncludes (jsJoin sep parts) x = true := by
  induction parts with
  | nil => simp at hx
  | cons y ys ih =>
      rcases List.mem_cons.mp hx with rfl | hmem
      · cases ys with
        | nil =>
            unfold jsIncludes jsJoin
            have := charsHaveSegment_self_append x.data []
            simpa using this
        | cons z zs =>
            show jsIncludes (x ++ sep ++ jsJoin sep (z :: zs)) x = true
            unfold jsIncludes
            rw [String.data_append, String.data_append, List.append_assoc]
            exact charsHaveSegment_self_append x.data _
      · cases ys with
        | nil => simp at hmem
        | cons z zs =>
            have ht := ih hmem
            show jsIncludes (y ++ sep ++ jsJoin sep (z :: zs)) x = true
            unfold jsIncludes at ht ⊢
            rw [String.data_append]
            exact charsHaveSegment_append_right _ _ _ ht

theorem jsIncludes_finalizeComment (lines : List String) (url : String) :
    jsIncludes (finalizeComment lines url) commentWatermark = true := by
  unfold finalizeComment
  apply jsIncludes_jsJoin_of_mem
  simp

theorem countWatermarked_cons (a : IssueComment) (l : List IssueComment) :
    countWatermarked (a :: l) =
      (if jsIncludes a.body commentWatermark = true then 1 else 0) +
        countWatermarked l := by
  by_cases h : jsIncludes a.body commentWatermark = true
  · simp [countWatermarked, List.filter_cons, h]
    omega
  · simp [countWatermarked, List.filter_cons, h]

theorem countWatermarked_append (l1 l2 : List IssueComment) :
    countWatermarked (l1 ++ l2) = countWatermarked l1 + countWatermarked l2 := by
  unfold countWatermarked
  rw [List.filter_append, List.length_append]

theorem countWatermarked_pos (c : IssueComment) (l : List IssueComment)
    (hc : c ∈ l) (hw : jsIncludes c.body commentWatermark = true) :
    1 ≤ countWatermarked l := by
  unfold countWatermarked
  have hmem : c ∈ l.filter (fun x => jsIncludes x.body commentWatermark) :=
    List.mem_filter.mpr ⟨hc, hw⟩
  exact List.length_pos.mpr (List.ne_nil_of_mem hmem)

theorem countWatermarked_map_replace (cid : Nat) (body : String)
    (hb : jsIncludes body commentWatermark = true) :
    ∀ (comments : List IssueComment),
      (comments.map (fun c => c.id)).Nodup →
      (∃ c, c ∈ comments ∧ c.id = cid ∧
        jsIncludes c.body commentWatermark = true) →
      countWatermarked comments ≤ 1 →
      countWatermarked (comments.map
        (fun x => if x.id = cid then { x with body := body } else x)) = 1 := by
  intro comments
  induction comments with
  | nil =>
      intro _ hex _
      obtain ⟨c, hc, _⟩ := hex
      simp at hc
  | cons a rest ih =>
      intro hnodup hex hcount
      rw [List.map_cons] at hnodup
      have hhead := List.nodup_cons.mp hnodup
      obtain ⟨c, hc, hcid, hcw⟩ := hex
      rw [List.map_cons]
      rcases List.mem_cons.mp hc with rfl | hcrest
      · rw [if_pos hcid]
        have hrest_id : ∀ x ∈ rest, ¬(x.id = cid) := by
          intro x hx hxe
          exact hhead.1 (by rw [hcid, ← hxe]; exact List.mem_map_of_mem _ hx)
        have hmap : rest.map
            (fun x => if x.id = cid then { x with body := body } else x) = rest := by
          calc rest.map (fun x => if x.id = cid then { x with body := body } else x)
              = rest.map id :=
                List.map_congr_left (fun x hx => by rw [if_neg (hrest_id x hx)]; rfl)
            _ = rest := List.map_id rest
        rw [hmap, countWatermarked_cons]
        have h0 : countWatermarked rest = 0 := by
          rw [countWatermarked_cons, if_pos hcw] at hcount
          omega
        simp [hb, h0]
      · have haid : ¬(a.id = cid) := by
          intro he
          exact hhead.1 (by rw [he, ← hcid]; exact List.mem_map_of_mem _ hcrest)
        rw [if_neg haid]
        have haw : ¬(jsIncludes a.body commentWatermark = true) := by
          intro h
          have hpos := countWatermarked_pos c rest hcrest hcw
          rw [countWatermarked_cons, if_pos h] at hcount
          omega
        have hcr : countWatermarked rest ≤ 1 := by
          rw [countWatermarked_cons, if_neg haw] at hcount
          omega
        rw [countWatermarked_cons, if_neg haw]
        have := ih hhead.2 ⟨c, hcrest, hcid, hcw⟩ hcr
        omega

theorem upsertComment_eq_append (comments : List IssueComment) (nid : Nat)
    (body : String)
    (h : comments.find? (fun item => jsIncludes item.body commentWatermark) = none) :
    upsertComment comments nid body = comments ++ [⟨nid, body⟩] := by
  unfold upsertComment
  cases comments with
  | nil => rfl
  | cons a rest =>
      rw [if_pos (by simp), h]
      rfl

theorem upsertComment_eq_update (comments : List IssueComment) (nid : Nat)
    (body : String) (c : IssueComment)
    (h : comments.find? (fun item => jsIncludes item.body commentWatermark) = some c)
    (hc0 : c.id ≠ 0) :
    upsertComment comments nid body =
      comments.map (fun x => if x.id = c.id then { x with body := body } else x) := by
  unfold upsertComment
  cases comments with
  | nil => simp [List.find?] at h
  | cons a rest =>
      rw [if_pos (by simp), h]
      simp only [Option.map_some']
      rw [if_pos hc0]

theorem upsertComment_count (comments : List IssueComment) (nid : Nat) (body : String)
    (hb : jsIncludes body commentWatermark = true)
    (hnodup : (comments.map (fun c => c.id)).Nodup)
    (hid0 : ∀ c ∈ comments, c.id ≠ 0)
    (hcount : countWatermarked comments ≤ 1) :
    countWatermarked (upsertComment comments nid body) = 1 := by
  cases hf : comments.find? (fun item => jsIncludes item.body commentWatermark) with
  | none =>
      rw [upsertComment_eq_append _ _ _ hf, countWatermarked_append]
      have h0 : countWatermarked comments = 0 := by
        unfold countWatermarked
        rw [List.filter_eq_nil_iff.mpr (by simpa using List.find?_eq_none.mp hf)]
        rfl
      rw [h0]
      simp [countWatermarked, List.filter, hb]
  | some c =>
      have hcmem := List.mem_of_find?_eq_some hf
      have hcw : jsIncludes c.body commentWatermark = true := by
        have hp := List.find?_some hf
        simpa using hp
      rw [upsertComment_eq_update _ _ _ _ hf (hid0 c hcmem)]
      exact countWatermarked_map_replace c.id body hb comments hnodup
        ⟨c, hcmem, rfl, hcw⟩ hcount

theorem upsertComment_ids (comments : List IssueComment) (nid : Nat) (body : String)
    (hnodup : (comments.map (fun c => c.id)).Nodup)
    (hid0 : ∀ c ∈ comments, c.id ≠ 0)
    (hnid : nid ≠ 0)
    (hfresh : nid ∉ comments.map (fun c => c.id)) :
    ((upsertComment comments nid body).map (fun c => c.id)).Nodup ∧
    (∀ c ∈ upsertComment comments nid body, c.id ≠ 0) := by
  cases hf : comments.find? (fun item => jsIncludes item.body commentWatermark) with
  | none =>
      rw [upsertComment_eq_append _ _ _ hf]
      constructor
      · rw [List.map_append]
        apply List.Nodup.append hnodup (List.nodup_singleton _)
        intro a ha hb
        have : a = nid := by simpa using hb
        rw [this] at ha
        exact hfresh ha
      · intro c hc
        rcases List.mem_append.mp hc with h | h
        · exact hid0 c h
        · have : c = ⟨nid, body⟩ := by simpa using h
          rw [this]
          exact hnid
  | some c0 =>
      rw [upsertComment_eq_update _ _ _ _ hf
        (hid0 c0 (List.mem_of_find?_eq_some hf))]
      have hids : (comments.map
          (fun x => if x.id = c0.id then { x with body := body } else x)).map
            (fun c => c.id) = comments.map (fun c => c.id) := by
        rw [List.map_map]
        apply List.map_congr_left
        intro x hx
        by_cases h : x.id = c0.id <;> simp [h]
      constructor
      · rw [hids]
        exact hnodup
      · intro c hc
        obtain ⟨x, hxmem, hfx⟩ := List.mem_map.mp hc
        have hcid : c.id = x.id := by
          rw [← hfx]
          by_cases h : x.id = c0.id <;> simp [h]
        rw [hcid]
        exact hid0 x hxmem

/-- C8: comment upsert is idempotent.  Posting a regression report (a body
built by `leaveComment`, which always embeds the watermark before joining)
to a thread updates the existing watermarked comment in place when one
exists, else creates a new watermarked comment — so posting the same report
twice against a thread holding at most one watermarked comment (with
distinct, nonzero comment ids, and a fresh id for any created comment)
leaves exactly one watermarked comment, never a duplicate; the second
conjunct shows one watermarked comment exists already after the first
post. -/
theorem commentUpsert_idem (lines : List String) (url : String)
    (comments : List IssueComment) (nid1 nid2 : Nat)
    (hnodup : (comments.map (fun c => c.id)).Nodup)
    (hid0 : ∀ c ∈ comments, c.id ≠ 0)
    (hnid1 : nid1 ≠ 0)
    (hfresh : nid1 ∉ comments.map (fun c => c.id))
    (hcount : countWatermarked comments ≤ 1) :
    countWatermarked
      (upsertComment (upsertComment comments nid1 (finalizeComment lines url)) nid2
        (finalizeComment lines url)) = 1
    ∧ countWatermarked (upsertComment comments nid1 (finalizeComment lines url)) = 1 := by
  have hb := jsIncludes_finalizeComment lines url
  have hids := upsertComment_ids comments nid1 (finalizeComment lines url) hnodup
    hid0 hnid1 hfresh
  have h1 := upsertComment_count comments nid1 (finalizeComment lines url) hb hnodup
    hid0 hcount
  exact ⟨upsertComment_count _ nid2 _ hb hids.1 hids.2 (le_of_eq h1), h1⟩

/-- Witness for `commentUpsert_idem`: a thread with one unrelated comment. -/
theorem commentUpsert_idem_witness :
    countWatermarked
      (upsertComment (upsertComment [⟨7, "hello"⟩] 8 (finalizeComment ["report"] "u")) 9
        (finalizeComment ["report"] "u")) = 1
    ∧ countWatermarked (upsertComment [⟨7, "hello"⟩] 8 (finalizeComment ["report"] "u")) = 1 :=
  commentUpsert_idem ["report"] "u" [⟨7, "hello"⟩] 8 9 (by decide) (by decide)
    (by decide) (by decide) (by decide)

/-- Initial heap for the C9 counterexample: one empty entries object at
reference 0, no suite arrays. -/
def heap0 : MergeHeap := ⟨[[]], []⟩

/-- The input document of the C9 counterexample; its entries object lives at
reference 0. -/
def hdoc0 : HeapDoc := ⟨5, "u", 0⟩

/-- C9 counterexample: under JavaScript reference semantics, `mergeResults`
mutates the document it was given.  Before the merge the input document's
entries object is empty; after the merge, reading the *input* document
through the resulting heap shows suite `S` mapped to the new suite array —
`mergedData.entries[suiteName] = suite` wrote through the entries reference
shared with the input. -/
theorem mergeResults_mutation_counterexample :
    getObj heap0 hdoc0.entriesRef = []
    ∧ getObj (mergeResultsHeap optsBase heap0 hdoc0
        [("file.json", ⟨"S-test", []⟩)] commitX 100).1 hdoc0.entriesRef = [("S", 0)]
    ∧ getArr (mergeResultsHeap optsBase heap0 hdoc0
        [("file.json", ⟨"S-test", []⟩)] commitX 100).1 0 = [⟨commitX, 100, []⟩] := by
  decide

/-- C9 (amended): `mergeResults` performs no I/O beyond reading the clock
(the `now` parameter; the value-level translation `mergeResults` is a pure
function of its inputs), and the returned document is a fresh top-level
record with the new `lastUpdated` — but `{ ...existingData }` is a *shallow*
copy: the returned document shares the `entries` object reference with the
input document, and the merge writes through that shared reference, so the
input document's entries mapping and suite sequences are mutated in place
(see the counterexample); with no runs, the heap is left untouched. -/
theorem mergeResultsHeap_shares_entries (opts : PublishOptions) (h : MergeHeap)
    (doc : HeapDoc) (runs : List (String × BenchmarkDotNetResults))
    (commit : Commit) (now : Int) :
    (mergeResultsHeap opts h doc runs commit now).2.entriesRef = doc.entriesRef
    ∧ (mergeResultsHeap opts h doc runs commit now).2.lastUpdated = now
    ∧ (mergeResultsHeap opts h doc runs commit now).2.repoUrl = doc.repoUrl
    ∧ (mergeResultsHeap opts h doc [] commit now).1 = h :=
  ⟨rfl, rfl, rfl, rfl⟩
